import Mathlib

/-!
# Verification of the `spans` crate (`src/lib.rs`)

A shallow embedding of the `spans` library: an iterator adapter that splits a
sequence into contiguous spans of items whose derived keys satisfy an
adjacency predicate.

Modelling conventions:

* The underlying Rust iterator is modelled as a finite `List α` consumed from
  the front.
* Rust's `std::iter::Peekable` is modelled by the structure `Peekable` below,
  with exactly the two fields of the Rust type: the one-element look-ahead
  buffer `peeked : Option (Option α)` and the remaining underlying items.
  `Peekable.peek` and `Peekable.next` reproduce the Rust methods
  (`peek` fills the buffer without consuming; `next` takes the buffered value
  when present).
* `SpansBy` carries the peekable cursor, the key function and the adjacency
  predicate, exactly as the Rust struct does.
* Rust's `Span` holds `parent: &'a mut SpansBy<...>`, `prev_key` and
  `is_init`.  Lean has no mutable borrows, so the embedding passes the parent
  state explicitly: `Span` keeps the two data fields `prev_key` and `is_init`,
  and `Span.next` takes the parent `SpansBy` as an extra argument and returns
  the updated span and parent alongside the yielded item.
-/

set_option autoImplicit false

variable {α κ : Type}

/-- Model of `std::iter::Peekable<I>` over a list-backed iterator:
`peeked` is the one-element look-ahead buffer (`Some(Some x)`: an item is
buffered, `Some(None)`: the end of the iterator was observed, `None`: the
buffer is empty) and `iter` is the not-yet-pulled remainder of the
underlying iterator. -/
structure Peekable (α : Type) where
  peeked : Option (Option α)
  iter : List α
deriving Repr, DecidableEq

namespace Peekable

/-- Model of `Peekable::peek`: return the buffered value if present, otherwise
pull one item from the underlying iterator into the buffer. -/
def peek (p : Peekable α) : Option α × Peekable α :=
  match p.peeked with
  | some v => (v, p)
  | none =>
    match p.iter with
    | [] => (none, { p with peeked := some none })
    | x :: rest => (some x, { peeked := some (some x), iter := rest })

/-- Model of `Peekable::next`: take the buffered value if present
(clearing the buffer), otherwise pull from the underlying iterator. -/
def next (p : Peekable α) : Option α × Peekable α :=
  match p.peeked with
  | some v => (v, { p with peeked := none })
  | none =>
    match p.iter with
    | [] => (none, p)
    | x :: rest => (some x, { p with iter := rest })

/-- The items still available for consumption through the cursor: the
buffered item (if any) followed by the untouched remainder. -/
def remaining (p : Peekable α) : List α :=
  (match p.peeked with
   | some (some x) => [x]
   | _ => []) ++ p.iter

/-- Number of items sitting in the look-ahead buffer (`0` or `1`). -/
def bufferCount (p : Peekable α) : Nat :=
  match p.peeked with
  | some (some _) => 1
  | _ => 0

/-- Well-formedness of a list-backed peekable cursor: if the buffer records
"end of iterator was observed" then the underlying list is indeed empty.
Every cursor reachable from `Spans.spans_by_key` satisfies this. -/
def WF (p : Peekable α) : Prop :=
  p.peeked = some none → p.iter = []

end Peekable

/-- Model of the `SpansBy` struct: the wrapped peekable iterator, the key
function and the adjacency predicate. -/
structure SpansBy (α κ : Type) where
  iter : Peekable α
  key : α → κ
  are_connected : κ → κ → Bool

/-- The data fields of the `Span` struct (`prev_key`, `is_init`); the
`parent` borrow is passed explicitly to `Span.next`. -/
structure Span (κ : Type) where
  prev_key : κ
  is_init : Bool
deriving Repr, DecidableEq

/-- Model of `SpansBy::next`: peek at the next unconsumed item; if none
exists return `none`, otherwise compute its key and hand out a fresh
`Span` seeded with that key and `is_init := true`.  The second component
is the (possibly mutated through the peek) `SpansBy` state. -/
def SpansBy.next (s : SpansBy α κ) : Option (Span κ) × SpansBy α κ :=
  match Peekable.peek s.iter with
  | (some first, p) =>
    (some { prev_key := s.key first, is_init := true }, { s with iter := p })
  | (none, p) => (none, { s with iter := p })

/-- Model of `<Span as Iterator>::next`.  The Rust method mutates the span
and its parent through `&mut`; here both updated states are returned.
Mirrors the source: on the first pull, clear `is_init` and pull directly;
otherwise peek, compute the peeked key, consume only when
`are_connected prev_key peek_key`, and in either case store `peek_key`
as the new `prev_key`. -/
def Span.next (sp : Span κ) (parent : SpansBy α κ) :
    Option α × Span κ × SpansBy α κ :=
  if sp.is_init then
    let r := Peekable.next parent.iter
    (r.1, { sp with is_init := false }, { parent with iter := r.2 })
  else
    match Peekable.peek parent.iter with
    | (none, p) => (none, sp, { parent with iter := p })
    | (some peeked, p) =>
      let peek_key := parent.key peeked
      if !(parent.are_connected sp.prev_key peek_key) then
        (none, { sp with prev_key := peek_key }, { parent with iter := p })
      else
        let r := Peekable.next p
        (r.1, { sp with prev_key := peek_key }, { parent with iter := r.2 })

/-- Model of `Spans::spans_by_key`: wrap the source in a fresh peekable
cursor (empty look-ahead buffer) together with the two functions. -/
def Spans.spans_by_key (iter : List α) (key : α → κ)
    (are_connected : κ → κ → Bool) : SpansBy α κ :=
  { iter := { peeked := none, iter := iter }
    key := key
    are_connected := are_connected }

/-! ## Full-run driver

The claims speak about a caller that repeatedly requests the next span and
fully drains it before requesting the following one.  `Span.drain` iterates
`Span.next` until it yields `none`; `SpansBy.segments` iterates
`SpansBy.next`, draining each span.  Both are written with explicit fuel
(structural recursion, so they evaluate by `decide`/`rfl`); the public
entry points supply fuel that is always sufficient, as proved below. -/

/-- Iterate `Span.next` until it returns `none`, collecting the yielded
items; returns the final span and parent states. -/
def drainFuel : Nat → Span κ → SpansBy α κ → List α × Span κ × SpansBy α κ
  | 0, sp, parent => ([], sp, parent)
  | n + 1, sp, parent =>
    match Span.next sp parent with
    | (none, sp', parent') => ([], sp', parent')
    | (some a, sp', parent') =>
      let r := drainFuel n sp' parent'
      (a :: r.1, r.2)

/-- Fully drain a span: pull items until the span signals exhaustion. -/
def Span.drain (sp : Span κ) (parent : SpansBy α κ) :
    List α × Span κ × SpansBy α κ :=
  drainFuel (parent.iter.remaining.length + 1) sp parent

/-- Iterate `SpansBy.next`, fully draining each returned span, and collect
the item lists of all spans in order. -/
def segmentsFuel : Nat → SpansBy α κ → List (List α)
  | 0, _ => []
  | n + 1, s =>
    match SpansBy.next s with
    | (none, _) => []
    | (some sp, s') =>
      let d := Span.drain sp s'
      d.1 :: segmentsFuel n d.2.2

/-- The complete segmentation run: repeatedly request the next span and
fully drain it, until `SpansBy.next` signals that no span remains. -/
def SpansBy.segments (s : SpansBy α κ) : List (List α) :=
  segmentsFuel (s.iter.remaining.length + 1) s

example :
    SpansBy.segments
      (Spans.spans_by_key [1, 2, 5, 6, 7, 11, 13, 14, 15]
        (fun x => x) (fun a b => a + 1 == b)) =
      [[1, 2], [5, 6, 7], [11], [13, 14, 15]] := by decide

example :
    SpansBy.segments
      (Spans.spans_by_key ([] : List Nat) (fun x => x) (fun a b => a == b)) =
      [] := by decide

/-! ## Pure list-level reference functions

The segmentation run is characterised against pure functions on lists.
`spanSplit key conn k l` splits `l` into the longest prefix that keeps the
`are_connected` chain alive starting from previous key `k`, and the rest. -/

/-- Split `l` into the maximal prefix chained to the previous key `k`
(each item accepted when `conn k' (key x)` holds, with `k'` the running
previous key) and the unconsumed remainder. -/
def spanSplit (key : α → κ) (conn : κ → κ → Bool) (k : κ) :
    List α → List α × List α
  | [] => ([], [])
  | x :: xs =>
    if conn k (key x) then
      let r := spanSplit key conn (key x) xs
      (x :: r.1, r.2)
    else ([], x :: xs)

theorem spanSplit_append (key : α → κ) (conn : κ → κ → Bool) (k : κ)
    (l : List α) :
    (spanSplit key conn k l).1 ++ (spanSplit key conn k l).2 = l := by
  induction l generalizing k with
  | nil => rfl
  | cons x xs ih =>
    simp only [spanSplit]
    by_cases h : conn k (key x) = true
    · simp [h, ih (key x)]
    · simp [h]

theorem spanSplit_fst_length_le (key : α → κ) (conn : κ → κ → Bool) (k : κ)
    (l : List α) : (spanSplit key conn k l).1.length ≤ l.length := by
  induction l generalizing k with
  | nil => simp [spanSplit]
  | cons x xs ih =>
    simp only [spanSplit]
    by_cases h : conn k (key x) = true
    · simpa [h] using ih (key x)
    · simp [h]

theorem spanSplit_snd_length_le (key : α → κ) (conn : κ → κ → Bool) (k : κ)
    (l : List α) : (spanSplit key conn k l).2.length ≤ l.length := by
  induction l generalizing k with
  | nil => simp [spanSplit]
  | cons x xs ih =>
    simp only [spanSplit]
    by_cases h : conn k (key x) = true
    · simpa [h] using Nat.le_succ_of_le (ih (key x))
    · simp [h]

/-- Pure reference segmentation of a list: the first span is the head item
together with the maximal chained prefix of the tail; recurse on the rest. -/
def segsPure (key : α → κ) (conn : κ → κ → Bool) : List α → List (List α)
  | [] => []
  | x :: xs =>
    let r := spanSplit key conn (key x) xs
    (x :: r.1) :: segsPure key conn r.2
termination_by l => l.length
decreasing_by
  simp only [List.length_cons]
  exact Nat.lt_succ_of_le (spanSplit_snd_length_le _ _ _ _)

theorem segsPure_nil (key : α → κ) (conn : κ → κ → Bool) :
    segsPure key conn [] = [] := by
  rw [segsPure]

theorem segsPure_cons (key : α → κ) (conn : κ → κ → Bool) (x : α)
    (xs : List α) :
    segsPure key conn (x :: xs) =
      (x :: (spanSplit key conn (key x) xs).1) ::
        segsPure key conn (spanSplit key conn (key x) xs).2 := by
  rw [segsPure]

/-! ## Normalization of cursor operations under well-formedness -/

namespace Peekable

theorem peek_wf_nil {p : Peekable α} (hwf : p.WF)
    (h : p.remaining = []) :
    p.peek = (none, ⟨some none, []⟩) := by
  obtain ⟨pk, it⟩ := p
  match pk with
  | none => cases it with
    | nil => rfl
    | cons x xs => simp [remaining] at h
  | some none =>
    have : it = [] := hwf rfl
    subst this
    rfl
  | some (some x) => simp [remaining] at h

theorem peek_wf_cons {p : Peekable α} {x : α} {xs : List α} (hwf : p.WF)
    (h : p.remaining = x :: xs) :
    p.peek = (some x, ⟨some (some x), xs⟩) := by
  obtain ⟨pk, it⟩ := p
  match pk with
  | none =>
    simp only [remaining, List.nil_append] at h
    subst h
    rfl
  | some none =>
    have : it = [] := hwf rfl
    subst this
    simp [remaining] at h
  | some (some y) =>
    simp only [remaining] at h
    obtain ⟨rfl, rfl⟩ := by simpa using h
    rfl

theorem next_wf_nil {p : Peekable α} (hwf : p.WF)
    (h : p.remaining = []) :
    p.next = (none, ⟨none, []⟩) := by
  obtain ⟨pk, it⟩ := p
  match pk with
  | none => cases it with
    | nil => rfl
    | cons x xs => simp [remaining] at h
  | some none =>
    have : it = [] := hwf rfl
    subst this
    rfl
  | some (some x) => simp [remaining] at h

theorem next_wf_cons {p : Peekable α} {x : α} {xs : List α} (hwf : p.WF)
    (h : p.remaining = x :: xs) :
    p.next = (some x, ⟨none, xs⟩) := by
  obtain ⟨pk, it⟩ := p
  match pk with
  | none =>
    simp only [remaining, List.nil_append] at h
    subst h
    rfl
  | some none =>
    have : it = [] := hwf rfl
    subst this
    simp [remaining] at h
  | some (some y) =>
    simp only [remaining] at h
    obtain ⟨rfl, rfl⟩ := by simpa using h
    rfl

theorem wf_buffered (v : Option α) (l : List α)
    (h : v = none → l = []) : WF (⟨some v, l⟩ : Peekable α) := by
  intro hv
  exact h (by simpa using hv)

theorem wf_empty_buffer (l : List α) : WF (⟨none, l⟩ : Peekable α) := by
  intro hv
  simp at hv

theorem remaining_buffered_some (x : α) (l : List α) :
    remaining (⟨some (some x), l⟩ : Peekable α) = x :: l := rfl

theorem remaining_buffered_none (l : List α) :
    remaining (⟨some none, l⟩ : Peekable α) = l := rfl

theorem remaining_empty_buffer (l : List α) :
    remaining (⟨none, l⟩ : Peekable α) = l := rfl

end Peekable

/-! ## Simulation: the embedded run computes the pure segmentation -/

theorem drainFuel_succ (n : Nat) (sp : Span κ) (parent : SpansBy α κ) :
    drainFuel (n + 1) sp parent =
      match Span.next sp parent with
      | (none, sp', parent') => ([], sp', parent')
      | (some a, sp', parent') =>
        let r := drainFuel n sp' parent'
        (a :: r.1, r.2) := rfl

/-- Draining an already-started span (`is_init = false`, previous key `k`)
yields exactly the maximal chained prefix of the remaining items, and leaves
the unconsumed remainder (headed by the rejected boundary item, when one
exists) available in the parent cursor. -/
theorem drainFuel_active (key : α → κ) (conn : κ → κ → Bool) :
    ∀ (l : List α) (n : Nat) (k : κ) (parent : SpansBy α κ),
      parent.key = key → parent.are_connected = conn →
      parent.iter.WF → parent.iter.remaining = l →
      (spanSplit key conn k l).1.length < n →
      ∃ spF sF, drainFuel n ⟨k, false⟩ parent =
          ((spanSplit key conn k l).1, spF, sF) ∧
        sF.key = key ∧ sF.are_connected = conn ∧ sF.iter.WF ∧
        sF.iter.remaining = (spanSplit key conn k l).2 := by
  intro l
  induction l with
  | nil =>
    intro n k parent hkey hconn hwf hrem hn
    obtain ⟨m, rfl⟩ : ∃ m, n = m + 1 := ⟨n - 1, by omega⟩
    have hpeek := Peekable.peek_wf_nil hwf hrem
    have hstep : Span.next (⟨k, false⟩ : Span κ) parent =
        (none, ⟨k, false⟩, { parent with iter := ⟨some none, []⟩ }) := by
      simp [Span.next, hpeek]
    refine ⟨⟨k, false⟩, { parent with iter := ⟨some none, []⟩ }, ?_, hkey, hconn,
      ?_, ?_⟩
    · simp [drainFuel, hstep, spanSplit]
    · intro h
      rfl
    · simp [Peekable.remaining, spanSplit]
  | cons x xs ih =>
    intro n k parent hkey hconn hwf hrem hn
    obtain ⟨m, rfl⟩ : ∃ m, n = m + 1 := ⟨n - 1, by omega⟩
    have hpeek := Peekable.peek_wf_cons hwf hrem
    by_cases hc : conn k (key x) = true
    · -- the peeked item is accepted and consumed
      have hstep : Span.next (⟨k, false⟩ : Span κ) parent =
          (some x, ⟨key x, false⟩, { parent with iter := ⟨none, xs⟩ }) := by
        simp [Span.next, hpeek, Peekable.next, hkey, hconn, hc]
      have hlt : (spanSplit key conn (key x) xs).1.length < m := by
        have := hn
        simp [spanSplit, hc] at this
        omega
      obtain ⟨spF, sF, hdrain, h1, h2, h3, h4⟩ :=
        ih m (key x) { parent with iter := ⟨none, xs⟩ } hkey hconn
          (Peekable.wf_empty_buffer xs) rfl hlt
      refine ⟨spF, sF, ?_, h1, h2, h3, ?_⟩
      · simp [drainFuel, hstep, hdrain, spanSplit, hc]
      · simp [h4, spanSplit, hc]
    · -- the peeked item is rejected: span ends, boundary item unconsumed
      have hstep : Span.next (⟨k, false⟩ : Span κ) parent =
          (none, ⟨key x, false⟩,
            { parent with iter := ⟨some (some x), xs⟩ }) := by
        simp [Span.next, hpeek, hkey, hconn, hc]
      refine ⟨⟨key x, false⟩, { parent with iter := ⟨some (some x), xs⟩ },
        ?_, hkey, hconn, ?_, ?_⟩
      · simp [drainFuel, hstep, spanSplit, hc]
      · intro h
        simp at h
      · simp [Peekable.remaining, spanSplit, hc]

/-- Fully draining a freshly created span over a nonempty cursor yields the
head item followed by the maximal prefix chained to the span's seed key. -/
theorem Span.drain_fresh (key : α → κ) (conn : κ → κ → Bool) (pk : κ)
    (parent : SpansBy α κ) {x : α} {xs : List α}
    (hkey : parent.key = key) (hconn : parent.are_connected = conn)
    (hwf : parent.iter.WF) (hrem : parent.iter.remaining = x :: xs) :
    ∃ spF sF, Span.drain ⟨pk, true⟩ parent =
        (x :: (spanSplit key conn pk xs).1, spF, sF) ∧
      sF.key = key ∧ sF.are_connected = conn ∧ sF.iter.WF ∧
      sF.iter.remaining = (spanSplit key conn pk xs).2 := by
  have hnext := Peekable.next_wf_cons hwf hrem
  have hstep : Span.next (⟨pk, true⟩ : Span κ) parent =
      (some x, ⟨pk, false⟩, { parent with iter := ⟨none, xs⟩ }) := by
    simp [Span.next, hnext]
  have hlt : (spanSplit key conn pk xs).1.length < xs.length + 1 :=
    Nat.lt_succ_of_le (spanSplit_fst_length_le key conn pk xs)
  obtain ⟨spF, sF, hdrain, h1, h2, h3, h4⟩ :=
    drainFuel_active key conn xs (xs.length + 1) pk
      { parent with iter := ⟨none, xs⟩ } hkey hconn
      (Peekable.wf_empty_buffer xs) rfl hlt
  refine ⟨spF, sF, ?_, h1, h2, h3, h4⟩
  simp only [Span.drain, hrem, List.length_cons]
  rw [drainFuel_succ, hstep]
  simp [hdrain]

/-- The full-run driver computes the pure segmentation of the remaining
items: requesting spans in order and fully draining each one partitions the
remaining input exactly as `segsPure` describes. -/
theorem segmentsFuel_sim (key : α → κ) (conn : κ → κ → Bool) :
    ∀ (N : Nat) (l : List α) (s : SpansBy α κ) (n : Nat),
      l.length ≤ N → s.key = key → s.are_connected = conn →
      s.iter.WF → s.iter.remaining = l → l.length < n →
      segmentsFuel n s = segsPure key conn l := by
  intro N
  induction N with
  | zero =>
    intro l s n hN hkey hconn hwf hrem hn
    obtain rfl : l = [] := List.length_eq_zero.mp (Nat.le_zero.mp hN)
    obtain ⟨m, rfl⟩ : ∃ m, n = m + 1 := ⟨n - 1, by omega⟩
    have hpeek := Peekable.peek_wf_nil hwf hrem
    simp [segmentsFuel, SpansBy.next, hpeek, segsPure_nil]
  | succ N ihN =>
    intro l s n hN hkey hconn hwf hrem hn
    obtain ⟨m, rfl⟩ : ∃ m, n = m + 1 := ⟨n - 1, by omega⟩
    cases l with
    | nil =>
      have hpeek := Peekable.peek_wf_nil hwf hrem
      simp [segmentsFuel, SpansBy.next, hpeek, segsPure_nil]
    | cons x xs =>
      have hpeek := Peekable.peek_wf_cons hwf hrem
      have houter : SpansBy.next s =
          (some ⟨key x, true⟩, { s with iter := ⟨some (some x), xs⟩ }) := by
        simp [SpansBy.next, hpeek, hkey]
      obtain ⟨spF, sF, hdrain, h1, h2, h3, h4⟩ :=
        Span.drain_fresh key conn (key x)
          { s with iter := ⟨some (some x), xs⟩ } hkey hconn
          (Peekable.wf_buffered (some x) xs (by intro h; cases h))
          (Peekable.remaining_buffered_some x xs)
      have hrest_le : (spanSplit key conn (key x) xs).2.length ≤ N := by
        have := spanSplit_snd_length_le key conn (key x) xs
        have hxl : xs.length ≤ N := by
          simpa using Nat.le_of_succ_le_succ hN
        omega
      have hrest_lt : (spanSplit key conn (key x) xs).2.length < m := by
        have := spanSplit_snd_length_le key conn (key x) xs
        have : xs.length + 1 < m + 1 := by simpa using hn
        omega
      have hrec := ihN (spanSplit key conn (key x) xs).2 sF m hrest_le h1 h2
        h3 h4 hrest_lt
      simp only [segmentsFuel, houter, hdrain, hrec, segsPure_cons]

/-- The full run of the embedded machinery from any well-formed state equals
the pure segmentation of the remaining items. -/
theorem SpansBy.segments_eq (s : SpansBy α κ) (hwf : s.iter.WF) :
    SpansBy.segments s = segsPure s.key s.are_connected s.iter.remaining :=
  segmentsFuel_sim s.key s.are_connected s.iter.remaining.length
    s.iter.remaining s (s.iter.remaining.length + 1) le_rfl rfl rfl hwf rfl
    (Nat.lt_succ_self _)

/-! ## Pure facts about the reference segmentation -/

theorem segsPure_flatten (key : α → κ) (conn : κ → κ → Bool) :
    ∀ (N : Nat) (l : List α), l.length ≤ N →
      (segsPure key conn l).flatten = l := by
  intro N
  induction N with
  | zero =>
    intro l hN
    obtain rfl : l = [] := List.length_eq_zero.mp (Nat.le_zero.mp hN)
    simp [segsPure_nil]
  | succ N ihN =>
    intro l hN
    cases l with
    | nil => simp [segsPure_nil]
    | cons x xs =>
      have hrest : (spanSplit key conn (key x) xs).2.length ≤ N := by
        have := spanSplit_snd_length_le key conn (key x) xs
        have : xs.length ≤ N := by simpa using Nat.le_of_succ_le_succ hN
        omega
      rw [segsPure_cons]
      simp only [List.flatten_cons, ihN _ hrest, List.cons_append]
      rw [spanSplit_append]

/-- The accepted prefix of `spanSplit` is chained to the seed item `x`
whose key starts the comparison chain. -/
theorem chain_spanSplit (key : α → κ) (conn : κ → κ → Bool) :
    ∀ (l : List α) (x : α),
      List.Chain (fun a b => conn (key a) (key b) = true) x
        (spanSplit key conn (key x) l).1 := by
  intro l
  induction l with
  | nil =>
    intro x
    simp [spanSplit]
  | cons y ys ih =>
    intro x
    by_cases hc : conn (key x) (key y) = true
    · simp only [spanSplit, hc, if_pos]
      exact List.Chain.cons hc (ih y)
    · simp [spanSplit, hc]

theorem getLast?_cons_eq (x : α) (t : List α) :
    (x :: t).getLast? = some (t.getLast?.getD x) := by
  induction t generalizing x with
  | nil => rfl
  | cons z zs ih => rw [List.getLast?_cons_cons, ih z]; rfl

/-- If `spanSplit` leaves a nonempty remainder, its head was rejected
against the key of the last accepted item (or the seed key `k` if nothing
was accepted). -/
theorem spanSplit_reject (key : α → κ) (conn : κ → κ → Bool) :
    ∀ (l : List α) (k : κ) (y : α),
      (spanSplit key conn k l).2.head? = some y →
      conn (((spanSplit key conn k l).1.getLast?.map key).getD k)
        (key y) = false := by
  intro l
  induction l with
  | nil => intro k y h; simp [spanSplit] at h
  | cons x xs ih =>
    intro k y h
    by_cases hc : conn k (key x) = true
    · simp only [spanSplit, hc, if_pos] at h ⊢
      have := ih (key x) y h
      rw [getLast?_cons_eq]
      cases hlast : (spanSplit key conn (key x) xs).1.getLast? with
      | none => simpa [hlast] using this
      | some z => simpa [hlast] using this
    · simp only [Bool.not_eq_true] at hc
      simp only [spanSplit, hc, Bool.false_eq_true, if_false] at h ⊢
      simp only [List.head?_cons, Option.some.injEq] at h
      subst h
      simpa using hc

theorem segsPure_mem_chain (key : α → κ) (conn : κ → κ → Bool) :
    ∀ (N : Nat) (l : List α), l.length ≤ N →
      ∀ sp ∈ segsPure key conn l,
        List.Chain' (fun a b => conn (key a) (key b) = true) sp := by
  intro N
  induction N with
  | zero =>
    intro l hN sp hsp
    obtain rfl : l = [] := List.length_eq_zero.mp (Nat.le_zero.mp hN)
    simp [segsPure_nil] at hsp
  | succ N ihN =>
    intro l hN sp hsp
    cases l with
    | nil => simp [segsPure_nil] at hsp
    | cons x xs =>
      rw [segsPure_cons] at hsp
      have hrest : (spanSplit key conn (key x) xs).2.length ≤ N := by
        have := spanSplit_snd_length_le key conn (key x) xs
        have : xs.length ≤ N := by simpa using Nat.le_of_succ_le_succ hN
        omega
      rcases List.mem_cons.mp hsp with rfl | hmem
      · exact chain_spanSplit key conn xs x
      · exact ihN _ hrest sp hmem

theorem segsPure_boundary (key : α → κ) (conn : κ → κ → Bool) :
    ∀ (N : Nat) (l : List α), l.length ≤ N →
      List.Chain'
        (fun s t => ∀ a ∈ s.getLast?, ∀ b ∈ t.head?,
          conn (key a) (key b) = false)
        (segsPure key conn l) := by
  intro N
  induction N with
  | zero =>
    intro l hN
    obtain rfl : l = [] := List.length_eq_zero.mp (Nat.le_zero.mp hN)
    simp [segsPure_nil]
  | succ N ihN =>
    intro l hN
    cases l with
    | nil => simp [segsPure_nil]
    | cons x xs =>
      have hrest : (spanSplit key conn (key x) xs).2.length ≤ N := by
        have := spanSplit_snd_length_le key conn (key x) xs
        have : xs.length ≤ N := by simpa using Nat.le_of_succ_le_succ hN
        omega
      rw [segsPure_cons]
      refine List.chain'_cons'.mpr ⟨?_, ihN _ hrest⟩
      intro t ht a ha b hb
      -- `t` is the head segment of the rest: its head is the rejected item
      cases hsnd : (spanSplit key conn (key x) xs).2 with
      | nil =>
        rw [hsnd, segsPure_nil] at ht
        simp at ht
      | cons y ys =>
        rw [hsnd, segsPure_cons] at ht
        simp only [List.head?_cons, Option.mem_def, Option.some.injEq] at ht
        subst ht
        simp only [List.head?_cons, Option.mem_def, Option.some.injEq] at hb
        subst hb
        have hrej := spanSplit_reject key conn xs (key x) y
          (by rw [hsnd]; rfl)
        rw [getLast?_cons_eq] at ha
        simp only [Option.mem_def, Option.some.injEq] at ha
        subst ha
        cases hlast : (spanSplit key conn (key x) xs).1.getLast? with
        | none => simpa [hlast] using hrej
        | some z => simpa [hlast] using hrej

/-! ## Claim theorems: coverage, adjacency, boundary -/

/-- C1 (coverage/partition law): repeatedly requesting the next span via
`SpansBy.next` and fully draining each returned span before requesting the
next reproduces the source sequence exactly — concatenating all spans'
items, in order, gives back the original list: same items, same order,
same count, no duplication, no omission. -/
theorem spans_coverage_partition (key : α → κ) (conn : κ → κ → Bool)
    (l : List α) :
    (SpansBy.segments (Spans.spans_by_key l key conn)).flatten = l := by
  rw [SpansBy.segments_eq _ (Peekable.wf_empty_buffer l)]
  exact segsPure_flatten key conn l.length l le_rfl

/-- C5 (internal adjacency law): under the drain-then-next discipline,
every consecutive pair `(a, b)` of items inside a yielded span satisfies
`are_connected (key a) (key b) = true`. -/
theorem spans_internal_adjacency (key : α → κ) (conn : κ → κ → Bool)
    (l : List α) (sp : List α)
    (hsp : sp ∈ SpansBy.segments (Spans.spans_by_key l key conn)) :
    List.Chain' (fun a b => conn (key a) (key b) = true) sp := by
  rw [SpansBy.segments_eq _ (Peekable.wf_empty_buffer l)] at hsp
  exact segsPure_mem_chain key conn l.length l le_rfl sp hsp

theorem spans_internal_adjacency_witness :
    [1, 2] ∈ SpansBy.segments
      (Spans.spans_by_key [1, 2, 5] (fun x => x) (fun a b => a + 1 == b)) ∧
    List.Chain' (fun a b : Nat => (a + 1 == b) = true) [1, 2] :=
  ⟨by decide,
    spans_internal_adjacency (fun x => x) (fun a b => a + 1 == b) [1, 2, 5]
      [1, 2] (by decide)⟩

/-- C6 (boundary law): under the drain-then-next discipline, for every
pair of consecutive spans, the last item of the earlier span and the first
item of the later span fail the adjacency predicate; moreover (by C1, the
partition law) the boundary item is not consumed by the exhausted span and
is exactly the first item of the following span. -/
theorem spans_boundary_law (key : α → κ) (conn : κ → κ → Bool)
    (l : List α) :
    List.Chain'
      (fun s t => ∀ a ∈ s.getLast?, ∀ b ∈ t.head?,
        conn (key a) (key b) = false)
      (SpansBy.segments (Spans.spans_by_key l key conn)) := by
  rw [SpansBy.segments_eq _ (Peekable.wf_empty_buffer l)]
  exact segsPure_boundary key conn l.length l le_rfl

/-! ## Claim theorems: non-emptiness, outer exhaustion, frame property -/

/-- C4 (non-empty span law): whenever `SpansBy.next` hands out a span, the
first `Span.next` call on it yields `some` item — namely the peeked head of
the remaining input; and `SpansBy.next` hands out a span only when at least
one unconsumed item remains. -/
theorem span_nonempty (s : SpansBy α κ) :
    (∀ sp s', SpansBy.next s = (some sp, s') →
      (Span.next sp s').1 = s.iter.remaining.head? ∧
      (Span.next sp s').1.isSome = true) ∧
    ((SpansBy.next s).1.isSome = true → s.iter.remaining ≠ []) := by
  obtain ⟨⟨pk, it⟩, k, c⟩ := s
  match pk with
  | none =>
    cases it with
    | nil =>
      constructor
      · intro sp s' h
        simp [SpansBy.next, Peekable.peek] at h
      · intro h
        simp [SpansBy.next, Peekable.peek] at h
    | cons x xs =>
      constructor
      · intro sp s' h
        simp only [SpansBy.next, Peekable.peek, Prod.mk.injEq,
          Option.some.injEq] at h
        obtain ⟨rfl, rfl⟩ := h
        constructor
        · rfl
        · rfl
      · intro _
        simp [Peekable.remaining]
  | some none =>
    constructor
    · intro sp s' h
      simp [SpansBy.next, Peekable.peek] at h
    · intro h
      simp [SpansBy.next, Peekable.peek] at h
  | some (some x) =>
    constructor
    · intro sp s' h
      simp only [SpansBy.next, Peekable.peek, Prod.mk.injEq,
        Option.some.injEq] at h
      obtain ⟨rfl, rfl⟩ := h
      constructor
      · rfl
      · rfl
    · intro _
      simp [Peekable.remaining]

theorem span_nonempty_witness :
    ((Span.next (⟨7, true⟩ : Span Nat)
        (SpansBy.next (Spans.spans_by_key [7] (fun x => x)
          (fun a b => a == b))).2).1 =
      (Spans.spans_by_key [7] (fun x => x)
        (fun a b => a == b)).iter.remaining.head? ∧
     (Span.next (⟨7, true⟩ : Span Nat)
        (SpansBy.next (Spans.spans_by_key [7] (fun x => x)
          (fun a b => a == b))).2).1.isSome = true) :=
  (span_nonempty _).1 ⟨7, true⟩ _ rfl

/-- C7 (outer exhaustion): `SpansBy.next` returns `none` exactly when no
unconsumed item remains (for every well-formed cursor state; every state
reachable from `Spans.spans_by_key` is well-formed, see `Reach_wf` below);
an empty source yields zero spans (the very first request already returns
`none`); and once `SpansBy.next` has returned `none` the state is a
fixpoint, so every further call returns `none` as well. -/
theorem spansBy_outer_exhaustion (s : SpansBy α κ) :
    (s.iter.WF → ((SpansBy.next s).1 = none ↔ s.iter.remaining = [])) ∧
    ((SpansBy.next s).1 = none →
      SpansBy.next (SpansBy.next s).2 = (none, (SpansBy.next s).2)) ∧
    (SpansBy.next (Spans.spans_by_key ([] : List α) s.key
      s.are_connected)).1 = none := by
  obtain ⟨⟨pk, it⟩, k, c⟩ := s
  refine ⟨?_, ?_, rfl⟩
  · intro hwf
    match pk with
    | none =>
      cases it with
      | nil => simp [SpansBy.next, Peekable.peek, Peekable.remaining]
      | cons x xs => simp [SpansBy.next, Peekable.peek, Peekable.remaining]
    | some none =>
      have : it = [] := hwf rfl
      subst this
      simp [SpansBy.next, Peekable.peek, Peekable.remaining]
    | some (some x) =>
      simp [SpansBy.next, Peekable.peek, Peekable.remaining]
  · intro h
    match pk with
    | none =>
      cases it with
      | nil => rfl
      | cons x xs => simp [SpansBy.next, Peekable.peek] at h
    | some none => rfl
    | some (some x) => simp [SpansBy.next, Peekable.peek] at h

theorem spansBy_outer_exhaustion_witness :
    ((SpansBy.next (Spans.spans_by_key ([] : List Nat) (fun x => x)
        (fun a b => a == b))).1 = none ↔
      (Spans.spans_by_key ([] : List Nat) (fun x => x)
        (fun a b => a == b)).iter.remaining = []) :=
  (spansBy_outer_exhaustion _).1 (fun h => nomatch h)

/-- C8 (frame property of span requests): a call to `SpansBy.next` consumes
no source item — the list of items still available for consumption, the key
function and the adjacency predicate are unchanged — and repeating
`SpansBy.next` with no intervening item pulls returns the very same result
(in particular a span seeded with the same first item). -/
theorem spansBy_next_frame (s : SpansBy α κ) :
    (SpansBy.next s).2.iter.remaining = s.iter.remaining ∧
    (SpansBy.next s).2.key = s.key ∧
    (SpansBy.next s).2.are_connected = s.are_connected ∧
    SpansBy.next (SpansBy.next s).2 = SpansBy.next s := by
  obtain ⟨⟨pk, it⟩, k, c⟩ := s
  match pk with
  | none =>
    cases it with
    | nil => exact ⟨rfl, rfl, rfl, rfl⟩
    | cons x xs => exact ⟨rfl, rfl, rfl, rfl⟩
  | some none => exact ⟨rfl, rfl, rfl, rfl⟩
  | some (some x) => exact ⟨rfl, rfl, rfl, rfl⟩

/-! ## Claim theorems: inner exhaustion (C2, C10)

`Span.next` stores the rejected item's key into `prev_key` when it returns
`none` at a span boundary.  A subsequent call therefore re-compares the
boundary item's key with itself: the span resumes whenever
`are_connected k k` holds for that key.  Exhaustion is idempotent exactly
when that self-comparison fails (or the source is exhausted). -/

/-- Concrete run refuting inner idempotent exhaustion: source `[1, 2]`,
key = identity, adjacency = equality. -/
def c2s0 : SpansBy Nat Nat :=
  Spans.spans_by_key [1, 2] (fun x => x) (fun a b => a == b)

/-- State after `SpansBy.next c2s0` handed out the span `⟨1, true⟩`. -/
def c2s1 : SpansBy Nat Nat :=
  { iter := ⟨some (some 1), [2]⟩, key := fun x => x
    are_connected := fun a b => a == b }

/-- State after the span yielded its first item `1`. -/
def c2s2 : SpansBy Nat Nat :=
  { iter := ⟨none, [2]⟩, key := fun x => x
    are_connected := fun a b => a == b }

/-- State after the span rejected the peeked item `2` (it stays buffered). -/
def c2s3 : SpansBy Nat Nat :=
  { iter := ⟨some (some 2), []⟩, key := fun x => x
    are_connected := fun a b => a == b }

/-- C2 counterexample: on source `[1, 2]` with key = identity and
adjacency = equality, the span obtained from `SpansBy.next` yields `1`,
then returns `none` (the item `2` is rejected against previous key `1`),
but the *next* call on the very same span returns `some 2` — the `none`
answer is not idempotent. -/
theorem span_exhaustion_counterexample :
    SpansBy.next c2s0 = (some ⟨1, true⟩, c2s1) ∧
    Span.next ⟨1, true⟩ c2s1 = (some 1, ⟨1, false⟩, c2s2) ∧
    Span.next ⟨1, false⟩ c2s2 = (none, ⟨2, false⟩, c2s3) ∧
    (Span.next ⟨2, false⟩ c2s3).1 = some 2 :=
  ⟨rfl, rfl, rfl, rfl⟩

/-- C2 amended (inner idempotent exhaustion, conditional): once `Span.next`
has returned `none`, the resulting span/parent pair is a *fixpoint* of
`Span.next` — so every further call returns `none` with unchanged state —
provided the head of the remaining input (the rejected boundary item, when
one exists) has a key `k` with `are_connected k k = false`.  Without that
proviso the claim fails (see the counterexample). -/
theorem span_exhaustion_amended (sp sp' : Span κ) (s s' : SpansBy α κ)
    (hinit : sp.is_init = false)
    (hnone : Span.next sp s = (none, sp', s'))
    (hself : ∀ x, s'.iter.remaining.head? = some x →
      s.are_connected (s.key x) (s.key x) = false) :
    Span.next sp' s' = (none, sp', s') := by
  obtain ⟨prev, ini⟩ := sp
  simp only at hinit
  subst hinit
  obtain ⟨⟨pk, it⟩, k, c⟩ := s
  match pk with
  | some none =>
    simp only [Span.next, Peekable.peek, Bool.false_eq_true, if_false,
      Prod.mk.injEq] at hnone
    obtain ⟨-, rfl, rfl⟩ := hnone
    rfl
  | some (some y) =>
    by_cases hc : c prev (k y) = true
    · simp [Span.next, Peekable.peek, Peekable.next, hc] at hnone
    · simp only [Bool.not_eq_true] at hc
      simp only [Span.next, Peekable.peek, hc, Bool.not_false, if_true,
        Bool.false_eq_true, if_false, Prod.mk.injEq] at hnone
      obtain ⟨-, rfl, rfl⟩ := hnone
      have hky := hself y (by simp [Peekable.remaining])
      dsimp only at hky
      simp [Span.next, Peekable.peek, hky]
  | none =>
    cases it with
    | nil =>
      simp only [Span.next, Peekable.peek, Bool.false_eq_true, if_false,
        Prod.mk.injEq] at hnone
      obtain ⟨-, rfl, rfl⟩ := hnone
      rfl
    | cons y ys =>
      by_cases hc : c prev (k y) = true
      · simp [Span.next, Peekable.peek, Peekable.next, hc] at hnone
      · simp only [Bool.not_eq_true] at hc
        simp only [Span.next, Peekable.peek, hc, Bool.not_false, if_true,
          Bool.false_eq_true, if_false, Prod.mk.injEq] at hnone
        obtain ⟨-, rfl, rfl⟩ := hnone
        have hky := hself y (by simp [Peekable.remaining])
        dsimp only at hky
        simp [Span.next, Peekable.peek, hky]

/-- Active span over source remainder `[3]` with previous key `1` and
adjacency `a + 1 == b`: the span rejects `3`. -/
def c2ws : SpansBy Nat Nat :=
  { iter := ⟨none, [3]⟩, key := fun x => x
    are_connected := fun a b => a + 1 == b }

/-- State after the rejection of `3` (buffered, unconsumed). -/
def c2ws' : SpansBy Nat Nat :=
  { iter := ⟨some (some 3), []⟩, key := fun x => x
    are_connected := fun a b => a + 1 == b }

theorem span_exhaustion_amended_witness :
    Span.next ⟨3, false⟩ c2ws' = (none, ⟨3, false⟩, c2ws') :=
  span_exhaustion_amended ⟨1, false⟩ ⟨3, false⟩ c2ws c2ws' rfl rfl
    (by
      intro x hx
      simp only [Peekable.remaining, List.head?] at hx
      cases hx
      rfl)

/-- C10 (implicit post-rejection state): when `Span.next` returns `none`
because the adjacency predicate rejected the peeked item `x`, the span's
stored previous key is overwritten with `key x` and `x` stays buffered,
unconsumed; a further `Span.next` call on that same span consumes and
returns `x` if `are_connected (key x) (key x) = true`, and otherwise
returns `none` again leaving `x` unconsumed (state unchanged). -/
theorem span_post_rejection (sp : Span κ) (s : SpansBy α κ) (x : α)
    (p' : Peekable α)
    (hinit : sp.is_init = false)
    (hpeek : Peekable.peek s.iter = (some x, p'))
    (hrej : s.are_connected sp.prev_key (s.key x) = false) :
    Span.next sp s = (none, ⟨s.key x, false⟩, { s with iter := p' }) ∧
    (s.are_connected (s.key x) (s.key x) = true →
      Span.next ⟨s.key x, false⟩ { s with iter := p' } =
        (some x, ⟨s.key x, false⟩,
          { s with iter := (Peekable.next p').2 })) ∧
    (s.are_connected (s.key x) (s.key x) = false →
      Span.next ⟨s.key x, false⟩ { s with iter := p' } =
        (none, ⟨s.key x, false⟩, { s with iter := p' })) := by
  obtain ⟨prev, ini⟩ := sp
  simp only at hinit hrej
  subst hinit
  obtain ⟨⟨pk, it⟩, k, c⟩ := s
  simp only at hpeek hrej ⊢
  have hbuf : p'.peeked = some (some x) := by
    match pk, it, hpeek with
    | some v, it, hpeek =>
      simp only [Peekable.peek, Prod.mk.injEq] at hpeek
      obtain ⟨rfl, rfl⟩ := hpeek
      rfl
    | none, y :: ys, hpeek =>
      simp only [Peekable.peek, Prod.mk.injEq, Option.some.injEq] at hpeek
      obtain ⟨rfl, rfl⟩ := hpeek
      rfl
  refine ⟨?_, ?_, ?_⟩
  · simp [Span.next, hpeek, hrej]
  · intro hacc
    obtain ⟨pp, pit⟩ := p'
    simp only at hbuf
    subst hbuf
    simp [Span.next, Peekable.peek, Peekable.next, hacc]
  · intro hacc
    obtain ⟨pp, pit⟩ := p'
    simp only at hbuf
    subst hbuf
    simp [Span.next, Peekable.peek, hacc]

/-! ## Instrumented run: counting key-function invocations (C3)

To reason about how often the key function is invoked, each operation is
re-transcribed from the source with one addition: it also returns the list
of arguments passed to `key` during that call, in call order.  The control
flow and state updates are identical to `SpansBy.next` / `Span.next`. -/

/-- `SpansBy::next`, also returning the arguments `key` was applied to:
one call, on the peeked item, whenever an item exists. -/
def SpansBy.nextLogged (s : SpansBy α κ) :
    (Option (Span κ) × SpansBy α κ) × List α :=
  match Peekable.peek s.iter with
  | (some first, p) =>
    ((some { prev_key := s.key first, is_init := true },
      { s with iter := p }), [first])
  | (none, p) => ((none, { s with iter := p }), [])

/-- `<Span as Iterator>::next`, also returning the arguments `key` was
applied to: none on the first pull or when the source is exhausted, and
exactly one call on the peeked item otherwise (whether it is accepted or
rejected). -/
def Span.nextLogged (sp : Span κ) (parent : SpansBy α κ) :
    (Option α × Span κ × SpansBy α κ) × List α :=
  if sp.is_init then
    let r := Peekable.next parent.iter
    ((r.1, { sp with is_init := false }, { parent with iter := r.2 }), [])
  else
    match Peekable.peek parent.iter with
    | (none, p) => ((none, sp, { parent with iter := p }), [])
    | (some peeked, p) =>
      let peek_key := parent.key peeked
      if !(parent.are_connected sp.prev_key peek_key) then
        ((none, { sp with prev_key := peek_key },
          { parent with iter := p }), [peeked])
      else
        let r := Peekable.next p
        ((r.1, { sp with prev_key := peek_key },
          { parent with iter := r.2 }), [peeked])

/-- Drain loop over `Span.nextLogged`, concatenating the per-call logs. -/
def drainLoggedFuel :
    Nat → Span κ → SpansBy α κ → (List α × Span κ × SpansBy α κ) × List α
  | 0, sp, parent => (([], sp, parent), [])
  | n + 1, sp, parent =>
    match Span.nextLogged sp parent with
    | ((none, sp', parent'), log) => (([], sp', parent'), log)
    | ((some a, sp', parent'), log) =>
      let r := drainLoggedFuel n sp' parent'
      ((a :: r.1.1, r.1.2), log ++ r.2)

/-- Fully drain a span while recording all key-function invocations. -/
def Span.drainLogged (sp : Span κ) (parent : SpansBy α κ) :
    (List α × Span κ × SpansBy α κ) × List α :=
  drainLoggedFuel (parent.iter.remaining.length + 1) sp parent

/-- Full segmentation run over the logged operations. -/
def segmentsLoggedFuel : Nat → SpansBy α κ → List (List α) × List α
  | 0, _ => ([], [])
  | n + 1, s =>
    match SpansBy.nextLogged s with
    | ((none, _), log) => ([], log)
    | ((some sp, s'), log) =>
      let d := Span.drainLogged sp s'
      let rest := segmentsLoggedFuel n d.1.2.2
      (d.1.1 :: rest.1, log ++ d.2 ++ rest.2)

/-- The complete segmentation run with the list of all arguments the key
function was invoked on, across `SpansBy.next` and `Span.next` calls, in
call order. -/
def SpansBy.segmentsLogged (s : SpansBy α κ) : List (List α) × List α :=
  segmentsLoggedFuel (s.iter.remaining.length + 1) s

/-- Pure description of the key-call log of one active span over remainder
`l` with previous key `k`: every accepted item once, and the rejecting
boundary item once. -/
def spanLogTail (key : α → κ) (conn : κ → κ → Bool) (k : κ) :
    List α → List α
  | [] => []
  | x :: xs =>
    if conn k (key x) then x :: spanLogTail key conn (key x) xs else [x]

/-- Pure description of the whole run's key-call log. -/
def keyLogPure (key : α → κ) (conn : κ → κ → Bool) : List α → List α
  | [] => []
  | x :: xs =>
    x :: spanLogTail key conn (key x) xs ++
      keyLogPure key conn (spanSplit key conn (key x) xs).2
termination_by l => l.length
decreasing_by
  simp only [List.length_cons]
  exact Nat.lt_succ_of_le (spanSplit_snd_length_le _ _ _ _)

theorem keyLogPure_nil (key : α → κ) (conn : κ → κ → Bool) :
    keyLogPure key conn [] = [] := by
  rw [keyLogPure]

theorem keyLogPure_cons (key : α → κ) (conn : κ → κ → Bool) (x : α)
    (xs : List α) :
    keyLogPure key conn (x :: xs) =
      x :: spanLogTail key conn (key x) xs ++
        keyLogPure key conn (spanSplit key conn (key x) xs).2 := by
  rw [keyLogPure]

/-- The expected key-call log of a run, expressed over its list of spans:
each span's items once, in order, plus one extra occurrence of the first
item of every span after the first (logged at the moment the previous span
rejects it). -/
def expectedLog : List (List α) → List α
  | [] => []
  | [s] => s
  | s :: t :: rest => s ++ t.head?.toList ++ expectedLog (t :: rest)

theorem spanLogTail_eq (key : α → κ) (conn : κ → κ → Bool) :
    ∀ (l : List α) (k : κ),
      spanLogTail key conn k l =
        (spanSplit key conn k l).1 ++
          (spanSplit key conn k l).2.head?.toList := by
  intro l
  induction l with
  | nil => intro k; simp [spanLogTail, spanSplit]
  | cons x xs ih =>
    intro k
    by_cases hc : conn k (key x) = true
    · simp [spanLogTail, spanSplit, hc, ih (key x)]
    · simp [spanLogTail, spanSplit, hc]

theorem keyLogPure_eq_expectedLog (key : α → κ) (conn : κ → κ → Bool) :
    ∀ (N : Nat) (l : List α), l.length ≤ N →
      keyLogPure key conn l = expectedLog (segsPure key conn l) := by
  intro N
  induction N with
  | zero =>
    intro l hN
    obtain rfl : l = [] := List.length_eq_zero.mp (Nat.le_zero.mp hN)
    simp [keyLogPure_nil, segsPure_nil, expectedLog]
  | succ N ihN =>
    intro l hN
    cases l with
    | nil => simp [keyLogPure_nil, segsPure_nil, expectedLog]
    | cons x xs =>
      have hrest : (spanSplit key conn (key x) xs).2.length ≤ N := by
        have := spanSplit_snd_length_le key conn (key x) xs
        have : xs.length ≤ N := by simpa using Nat.le_of_succ_le_succ hN
        omega
      rw [keyLogPure_cons, segsPure_cons, spanLogTail_eq,
        ihN _ hrest]
      cases hsnd : (spanSplit key conn (key x) xs).2 with
      | nil => simp [hsnd, segsPure_nil, expectedLog]
      | cons y ys =>
        rw [segsPure_cons]
        simp [expectedLog, List.append_assoc]

/-- Logged analogue of `drainFuel_active`: the state evolution coincides
with the unlogged drain, and the log is `spanLogTail`. -/
theorem drainLoggedFuel_active (key : α → κ) (conn : κ → κ → Bool) :
    ∀ (l : List α) (n : Nat) (k : κ) (parent : SpansBy α κ),
      parent.key = key → parent.are_connected = conn →
      parent.iter.WF → parent.iter.remaining = l →
      (spanSplit key conn k l).1.length < n →
      ∃ spF sF, drainLoggedFuel n ⟨k, false⟩ parent =
          (((spanSplit key conn k l).1, spF, sF),
            spanLogTail key conn k l) ∧
        sF.key = key ∧ sF.are_connected = conn ∧ sF.iter.WF ∧
        sF.iter.remaining = (spanSplit key conn k l).2 := by
  intro l
  induction l with
  | nil =>
    intro n k parent hkey hconn hwf hrem hn
    obtain ⟨m, rfl⟩ : ∃ m, n = m + 1 := ⟨n - 1, by omega⟩
    have hpeek := Peekable.peek_wf_nil hwf hrem
    have hstep : Span.nextLogged (⟨k, false⟩ : Span κ) parent =
        ((none, ⟨k, false⟩, { parent with iter := ⟨some none, []⟩ }), []) := by
      simp [Span.nextLogged, hpeek]
    refine ⟨⟨k, false⟩, { parent with iter := ⟨some none, []⟩ }, ?_, hkey,
      hconn, ?_, ?_⟩
    · simp [drainLoggedFuel, hstep, spanSplit, spanLogTail]
    · intro h
      rfl
    · simp [Peekable.remaining, spanSplit]
  | cons x xs ih =>
    intro n k parent hkey hconn hwf hrem hn
    obtain ⟨m, rfl⟩ : ∃ m, n = m + 1 := ⟨n - 1, by omega⟩
    have hpeek := Peekable.peek_wf_cons hwf hrem
    by_cases hc : conn k (key x) = true
    · have hstep : Span.nextLogged (⟨k, false⟩ : Span κ) parent =
          ((some x, ⟨key x, false⟩, { parent with iter := ⟨none, xs⟩ }),
            [x]) := by
        simp [Span.nextLogged, hpeek, Peekable.next, hkey, hconn, hc]
      have hlt : (spanSplit key conn (key x) xs).1.length < m := by
        have := hn
        simp [spanSplit, hc] at this
        omega
      obtain ⟨spF, sF, hdrain, h1, h2, h3, h4⟩ :=
        ih m (key x) { parent with iter := ⟨none, xs⟩ } hkey hconn
          (Peekable.wf_empty_buffer xs) rfl hlt
      refine ⟨spF, sF, ?_, h1, h2, h3, ?_⟩
      · simp [drainLoggedFuel, hstep, hdrain, spanSplit, spanLogTail, hc]
      · simp [h4, spanSplit, hc]
    · have hstep : Span.nextLogged (⟨k, false⟩ : Span κ) parent =
          ((none, ⟨key x, false⟩,
            { parent with iter := ⟨some (some x), xs⟩ }), [x]) := by
        simp [Span.nextLogged, hpeek, hkey, hconn, hc]
      refine ⟨⟨key x, false⟩,
        { parent with iter := ⟨some (some x), xs⟩ }, ?_, hkey, hconn, ?_,
        ?_⟩
      · simp [drainLoggedFuel, hstep, spanSplit, spanLogTail, hc]
      · intro h
        simp at h
      · simp [Peekable.remaining, spanSplit, hc]

theorem drainLoggedFuel_succ (n : Nat) (sp : Span κ) (parent : SpansBy α κ) :
    drainLoggedFuel (n + 1) sp parent =
      match Span.nextLogged sp parent with
      | ((none, sp', parent'), log) => (([], sp', parent'), log)
      | ((some a, sp', parent'), log) =>
        let r := drainLoggedFuel n sp' parent'
        ((a :: r.1.1, r.1.2), log ++ r.2) := rfl

/-- Logged analogue of `Span.drain_fresh`: the first pull logs nothing. -/
theorem Span.drainLogged_fresh (key : α → κ) (conn : κ → κ → Bool) (pk : κ)
    (parent : SpansBy α κ) {x : α} {xs : List α}
    (hkey : parent.key = key) (hconn : parent.are_connected = conn)
    (hwf : parent.iter.WF) (hrem : parent.iter.remaining = x :: xs) :
    ∃ spF sF, Span.drainLogged ⟨pk, true⟩ parent =
        ((x :: (spanSplit key conn pk xs).1, spF, sF),
          spanLogTail key conn pk xs) ∧
      sF.key = key ∧ sF.are_connected = conn ∧ sF.iter.WF ∧
      sF.iter.remaining = (spanSplit key conn pk xs).2 := by
  have hnext := Peekable.next_wf_cons hwf hrem
  have hstep : Span.nextLogged (⟨pk, true⟩ : Span κ) parent =
      ((some x, ⟨pk, false⟩, { parent with iter := ⟨none, xs⟩ }), []) := by
    simp [Span.nextLogged, hnext]
  have hlt : (spanSplit key conn pk xs).1.length < xs.length + 1 :=
    Nat.lt_succ_of_le (spanSplit_fst_length_le key conn pk xs)
  obtain ⟨spF, sF, hdrain, h1, h2, h3, h4⟩ :=
    drainLoggedFuel_active key conn xs (xs.length + 1) pk
      { parent with iter := ⟨none, xs⟩ } hkey hconn
      (Peekable.wf_empty_buffer xs) rfl hlt
  refine ⟨spF, sF, ?_, h1, h2, h3, h4⟩
  simp only [Span.drainLogged, hrem, List.length_cons]
  rw [drainLoggedFuel_succ, hstep]
  simp [hdrain]

/-- Logged analogue of `segmentsFuel_sim`: the spans agree with the pure
segmentation and the key-call log is `keyLogPure`. -/
theorem segmentsLoggedFuel_sim (key : α → κ) (conn : κ → κ → Bool) :
    ∀ (N : Nat) (l : List α) (s : SpansBy α κ) (n : Nat),
      l.length ≤ N → s.key = key → s.are_connected = conn →
      s.iter.WF → s.iter.remaining = l → l.length < n →
      segmentsLoggedFuel n s = (segsPure key conn l, keyLogPure key conn l) := by
  intro N
  induction N with
  | zero =>
    intro l s n hN hkey hconn hwf hrem hn
    obtain rfl : l = [] := List.length_eq_zero.mp (Nat.le_zero.mp hN)
    obtain ⟨m, rfl⟩ : ∃ m, n = m + 1 := ⟨n - 1, by omega⟩
    have hpeek := Peekable.peek_wf_nil hwf hrem
    simp [segmentsLoggedFuel, SpansBy.nextLogged, hpeek, segsPure_nil,
      keyLogPure_nil]
  | succ N ihN =>
    intro l s n hN hkey hconn hwf hrem hn
    obtain ⟨m, rfl⟩ : ∃ m, n = m + 1 := ⟨n - 1, by omega⟩
    cases l with
    | nil =>
      have hpeek := Peekable.peek_wf_nil hwf hrem
      simp [segmentsLoggedFuel, SpansBy.nextLogged, hpeek, segsPure_nil,
        keyLogPure_nil]
    | cons x xs =>
      have hpeek := Peekable.peek_wf_cons hwf hrem
      have houter : SpansBy.nextLogged s =
          ((some ⟨key x, true⟩, { s with iter := ⟨some (some x), xs⟩ }),
            [x]) := by
        simp [SpansBy.nextLogged, hpeek, hkey]
      obtain ⟨spF, sF, hdrain, h1, h2, h3, h4⟩ :=
        Span.drainLogged_fresh key conn (key x)
          { s with iter := ⟨some (some x), xs⟩ } hkey hconn
          (Peekable.wf_buffered (some x) xs (by intro h; cases h))
          (Peekable.remaining_buffered_some x xs)
      have hrest_le : (spanSplit key conn (key x) xs).2.length ≤ N := by
        have := spanSplit_snd_length_le key conn (key x) xs
        have hxl : xs.length ≤ N := by
          simpa using Nat.le_of_succ_le_succ hN
        omega
      have hrest_lt : (spanSplit key conn (key x) xs).2.length < m := by
        have := spanSplit_snd_length_le key conn (key x) xs
        have : xs.length + 1 < m + 1 := by simpa using hn
        omega
      have hrec := ihN (spanSplit key conn (key x) xs).2 sF m hrest_le h1 h2
        h3 h4 hrest_lt
      simp only [segmentsLoggedFuel, houter, hdrain, hrec, segsPure_cons,
        keyLogPure_cons]
      simp

/-- C3 counterexample: on source `[1, 2]` with key = identity and an
always-false adjacency predicate, a full drain-then-next run invokes the
key function on the arguments `[1, 2, 2]` — the boundary item `2` has its
key computed twice (once when span 1 rejects it, once when span 2 is
created), contradicting "exactly once per source item". -/
theorem spans_key_call_count_counterexample :
    (SpansBy.segmentsLogged
      (Spans.spans_by_key [1, 2] (fun x => x) (fun _ _ => false))).2 =
      [1, 2, 2] ∧
    ¬((SpansBy.segmentsLogged
      (Spans.spans_by_key [1, 2] (fun x => x)
        (fun _ _ => false))).2.count 2 = 1) :=
  ⟨rfl, by decide⟩

/-- C3 amended (key-call count): over a full drain-then-next run, the
instrumented machinery yields exactly the same spans as the plain one, and
the key function is invoked exactly once per source item in order *except*
that the first item of every span after the first is passed to the key
function twice: once when the previous span rejects it and once when its
own span is created (`expectedLog` of the segments). -/
theorem spans_key_call_count_amended (key : α → κ) (conn : κ → κ → Bool)
    (l : List α) :
    (SpansBy.segmentsLogged (Spans.spans_by_key l key conn)).1 =
      SpansBy.segments (Spans.spans_by_key l key conn) ∧
    (SpansBy.segmentsLogged (Spans.spans_by_key l key conn)).2 =
      expectedLog (SpansBy.segments (Spans.spans_by_key l key conn)) := by
  have hlog : SpansBy.segmentsLogged (Spans.spans_by_key l key conn) =
      (segsPure key conn l, keyLogPure key conn l) :=
    segmentsLoggedFuel_sim key conn l.length l
      (Spans.spans_by_key l key conn) (l.length + 1) le_rfl rfl rfl
      (Peekable.wf_empty_buffer l) rfl (Nat.lt_succ_self _)
  have hseg : SpansBy.segments (Spans.spans_by_key l key conn) =
      segsPure key conn l :=
    SpansBy.segments_eq (Spans.spans_by_key l key conn)
      (Peekable.wf_empty_buffer l)
  refine ⟨?_, ?_⟩
  · rw [hlog, hseg]
  · rw [hlog, hseg]
    exact keyLogPure_eq_expectedLog key conn l.length l le_rfl

/-! ## Reachable states and the look-ahead invariant (C9) -/

/-- All states of the `SpansBy`/`Span` machinery reachable from
`Spans.spans_by_key l0 key conn` under any interleaving of span requests
and item pulls.  The `Option (Span κ)` component is the currently active
span (if any); the `Nat` counts the items yielded to the caller. -/
inductive Reach (l0 : List α) (key : α → κ) (conn : κ → κ → Bool) :
    SpansBy α κ → Option (Span κ) → Nat → Prop
  | init : Reach l0 key conn (Spans.spans_by_key l0 key conn) none 0
  | outer {s : SpansBy α κ} {osp : Option (Span κ)} {n : Nat}
      {osp' : Option (Span κ)} {s' : SpansBy α κ} :
      Reach l0 key conn s osp n → SpansBy.next s = (osp', s') →
      Reach l0 key conn s' osp' n
  | innerSome {s : SpansBy α κ} {sp : Span κ} {n : Nat} {a : α}
      {sp' : Span κ} {s' : SpansBy α κ} :
      Reach l0 key conn s (some sp) n → Span.next sp s = (some a, sp', s') →
      Reach l0 key conn s' (some sp') (n + 1)
  | innerNone {s : SpansBy α κ} {sp : Span κ} {n : Nat}
      {sp' : Span κ} {s' : SpansBy α κ} :
      Reach l0 key conn s (some sp) n → Span.next sp s = (none, sp', s') →
      Reach l0 key conn s' (some sp') n

theorem Peekable.bufferCount_le_one (p : Peekable α) : p.bufferCount ≤ 1 := by
  obtain ⟨pk, it⟩ := p
  match pk with
  | none => exact Nat.zero_le 1
  | some none => exact Nat.zero_le 1
  | some (some x) => exact le_rfl

/-- `peek` never changes the number of items available through the cursor:
it only moves the head of the underlying iterator into the buffer. -/
theorem Peekable.peek_load (p : Peekable α) :
    (p.peek).2.bufferCount + (p.peek).2.iter.length =
      p.bufferCount + p.iter.length := by
  obtain ⟨pk, it⟩ := p
  match pk with
  | none =>
    cases it with
    | nil => rfl
    | cons x xs =>
      simp [peek, bufferCount]
      omega
  | some none => rfl
  | some (some x) => rfl

/-- A `SpansBy.next` call never consumes an item: the total number of items
available through the cursor is unchanged. -/
theorem spansBy_next_load (s : SpansBy α κ) :
    (SpansBy.next s).2.iter.bufferCount +
        (SpansBy.next s).2.iter.iter.length =
      s.iter.bufferCount + s.iter.iter.length := by
  obtain ⟨⟨pk, it⟩, k, c⟩ := s
  match pk with
  | none =>
    cases it with
    | nil => rfl
    | cons x xs =>
      simp [SpansBy.next, Peekable.peek, Peekable.bufferCount]
      omega
  | some none => rfl
  | some (some x) => rfl

/-- A `Span.next` call consumes exactly one item from the cursor when it
yields `some` item, and none when it yields `none`. -/
theorem span_next_load (sp : Span κ) (parent : SpansBy α κ) :
    parent.iter.bufferCount + parent.iter.iter.length =
      (Span.next sp parent).2.2.iter.bufferCount +
        (Span.next sp parent).2.2.iter.iter.length +
        (if (Span.next sp parent).1.isSome then 1 else 0) := by
  obtain ⟨prev, ini⟩ := sp
  obtain ⟨⟨pk, it⟩, k, c⟩ := parent
  cases ini with
  | true =>
    match pk with
    | none =>
      cases it with
      | nil => rfl
      | cons x xs =>
        simp [Span.next, Peekable.next, Peekable.bufferCount]
    | some none => rfl
    | some (some x) =>
      simp [Span.next, Peekable.next, Peekable.bufferCount]
      omega
  | false =>
    match pk with
    | none =>
      cases it with
      | nil => rfl
      | cons x xs =>
        by_cases hc : c prev (k x) = true
        · simp [Span.next, Peekable.peek, Peekable.next,
            Peekable.bufferCount, hc]
        · simp only [Bool.not_eq_true] at hc
          simp [Span.next, Peekable.peek, Peekable.bufferCount, hc]
          omega
    | some none => rfl
    | some (some x) =>
      by_cases hc : c prev (k x) = true
      · simp [Span.next, Peekable.peek, Peekable.next,
          Peekable.bufferCount, hc]
        omega
      · simp only [Bool.not_eq_true] at hc
        simp [Span.next, Peekable.peek, Peekable.bufferCount, hc]

/-- C9 counterexample: the freshly constructed sequencer is a reachable
state of the machinery whose look-ahead buffer holds zero items, refuting
"exactly one look-ahead item is buffered at every reachable state". -/
theorem spans_lookahead_counterexample :
    Reach [1, 2] (fun x => x) (fun a b => a == b)
      (Spans.spans_by_key [1, 2] (fun x => x) (fun a b => a == b)) none 0 ∧
    ¬((Spans.spans_by_key [1, 2] (fun x : Nat => x)
        (fun a b => a == b)).iter.bufferCount = 1) :=
  ⟨Reach.init, by decide⟩

/-- C9 amended (look-ahead invariant): at every reachable state of the
machinery, *at most* one item sits in the look-ahead buffer, and the number
of items pulled from the underlying source (`l0.length` minus the untouched
remainder) exceeds the number of items yielded to the caller exactly by the
buffered amount — in particular the source is never consumed more than one
item ahead of what has been yielded. -/
theorem spans_lookahead_invariant {l0 : List α} {key : α → κ}
    {conn : κ → κ → Bool} {s : SpansBy α κ} {osp : Option (Span κ)} {n : Nat}
    (h : Reach l0 key conn s osp n) :
    l0.length = n + (s.iter.bufferCount + s.iter.iter.length) ∧
    s.iter.bufferCount ≤ 1 ∧
    l0.length - s.iter.iter.length ≤ n + 1 := by
  induction h with
  | init =>
    refine ⟨?_, Peekable.bufferCount_le_one _, ?_⟩
    · simp [Spans.spans_by_key, Peekable.bufferCount]
    · simp [Spans.spans_by_key]
  | outer hr hstep ih =>
    rename_i s osp m osp' s'
    have hload := spansBy_next_load s
    rw [hstep] at hload
    simp only at hload
    refine ⟨?_, Peekable.bufferCount_le_one _, ?_⟩
    · omega
    · have hb := Peekable.bufferCount_le_one s'.iter
      omega
  | innerSome hr hstep ih =>
    rename_i s sp m a sp' s'
    have hload := span_next_load sp s
    rw [hstep] at hload
    simp only [Option.isSome_some, if_true] at hload
    refine ⟨?_, Peekable.bufferCount_le_one _, ?_⟩
    · omega
    · have hb := Peekable.bufferCount_le_one s'.iter
      omega
  | innerNone hr hstep ih =>
    rename_i s sp m sp' s'
    have hload := span_next_load sp s
    rw [hstep] at hload
    simp only [Option.isSome_none, Bool.false_eq_true, if_false] at hload
    refine ⟨?_, Peekable.bufferCount_le_one _, ?_⟩
    · omega
    · have hb := Peekable.bufferCount_le_one s'.iter
      omega

theorem Peekable.peek_preserves_wf (p : Peekable α) (hwf : p.WF) : (p.peek).2.WF := by
  obtain ⟨pk, it⟩ := p
  match pk with
  | none =>
    cases it with
    | nil => intro h; rfl
    | cons x xs => intro h; simp [Peekable.peek] at h
  | some none => exact hwf
  | some (some x) => exact hwf

theorem Peekable.next_preserves_wf (p : Peekable α) (hwf : p.WF) : (p.next).2.WF := by
  obtain ⟨pk, it⟩ := p
  match pk with
  | none =>
    cases it with
    | nil => exact hwf
    | cons x xs => intro h; simp [Peekable.next] at h
  | some none => intro h; simp [Peekable.next] at h
  | some (some x) => intro h; simp [Peekable.next] at h

theorem spansBy_next_preserves_wf (s : SpansBy α κ) (hwf : s.iter.WF) :
    (SpansBy.next s).2.iter.WF := by
  obtain ⟨p, k, c⟩ := s
  have := Peekable.peek_preserves_wf p hwf
  unfold SpansBy.next
  match hpeek : Peekable.peek p with
  | (some v, q) =>
    rw [hpeek] at this
    exact this
  | (none, q) =>
    rw [hpeek] at this
    exact this

theorem span_next_preserves_wf (sp : Span κ) (parent : SpansBy α κ)
    (hwf : parent.iter.WF) : (Span.next sp parent).2.2.iter.WF := by
  obtain ⟨prev, ini⟩ := sp
  obtain ⟨p, k, c⟩ := parent
  cases ini with
  | true => exact Peekable.next_preserves_wf p hwf
  | false =>
    have hpk := Peekable.peek_preserves_wf p hwf
    unfold Span.next
    match hpeek : Peekable.peek p with
    | (none, q) =>
      rw [hpeek] at hpk
      simpa using hpk
    | (some v, q) =>
      rw [hpeek] at hpk
      by_cases hc : c prev (k v) = true
      · have hq := Peekable.next_preserves_wf q hpk
        simp only [hc, Bool.not_true, Bool.false_eq_true, if_false]
        exact hq
      · simp only [Bool.not_eq_true] at hc
        simp only [hc, Bool.not_false, if_true]
        exact hpk

/-- Every reachable state of the machinery has a well-formed cursor, so the
well-formedness hypotheses of the theorems above are satisfied along every
actual run. -/
theorem Reach_wf {l0 : List α} {key : α → κ} {conn : κ → κ → Bool}
    {s : SpansBy α κ} {osp : Option (Span κ)} {n : Nat}
    (h : Reach l0 key conn s osp n) : s.iter.WF := by
  induction h with
  | init => exact Peekable.wf_empty_buffer l0
  | outer hr hstep ih =>
    rename_i s osp m osp' s'
    have := spansBy_next_preserves_wf s ih
    rw [hstep] at this
    exact this
  | innerSome hr hstep ih =>
    rename_i s sp m a sp' s'
    have := span_next_preserves_wf sp s ih
    rw [hstep] at this
    exact this
  | innerNone hr hstep ih =>
    rename_i s sp m sp' s'
    have := span_next_preserves_wf sp s ih
    rw [hstep] at this
    exact this

theorem spans_lookahead_invariant_witness :
    ([1, 2] : List Nat).length =
      0 + ((Spans.spans_by_key [1, 2] (fun x => x)
          (fun a b => a == b)).iter.bufferCount +
        (Spans.spans_by_key [1, 2] (fun x : Nat => x)
          (fun a b => a == b)).iter.iter.length) ∧
    (Spans.spans_by_key [1, 2] (fun x : Nat => x)
      (fun a b => a == b)).iter.bufferCount ≤ 1 ∧
    ([1, 2] : List Nat).length -
        (Spans.spans_by_key [1, 2] (fun x : Nat => x)
          (fun a b => a == b)).iter.iter.length ≤ 0 + 1 :=
  spans_lookahead_invariant Reach.init

/-- Parent state for the C10 witness: remainder `[2]`, key = identity,
adjacency = equality; the active span's previous key is `1`. -/
def c10s : SpansBy Nat Nat :=
  { iter := ⟨none, [2]⟩, key := fun x => x
    are_connected := fun a b => a == b }

/-- Cursor state with the rejected item `2` buffered. -/
def c10p : Peekable Nat := ⟨some (some 2), []⟩

theorem span_post_rejection_witness :
    Span.next (⟨1, false⟩ : Span Nat) c10s =
      (none, ⟨2, false⟩, { c10s with iter := c10p }) ∧
    ((2 == 2) = true →
      Span.next (⟨2, false⟩ : Span Nat) { c10s with iter := c10p } =
        (some 2, ⟨2, false⟩,
          { c10s with iter := (Peekable.next c10p).2 })) ∧
    ((2 == 2) = false →
      Span.next (⟨2, false⟩ : Span Nat) { c10s with iter := c10p } =
        (none, ⟨2, false⟩, { c10s with iter := c10p })) :=
  span_post_rejection ⟨1, false⟩ c10s 2 c10p rfl rfl rfl

